import Mathlib

/-!
Verification of `models.py` (supervised-learning models: binary perceptron,
scalar regression, digit classification, recurrent language identification).

The external tensor/autodiff library `nn` is modelled by shallow embeddings of
its pure tensor operations on rational matrices (`Mat`); the operations whose
numeric behaviour the repository never relies on (gradients, loss values,
validation accuracy, dataset iteration) are taken as parameters of the
training functions, exactly as they are external collaborators of the code.
All numbers are rationals, standing for the exact real arithmetic the claims
reason about.
-/

namespace Models

/-- A tensor node: a matrix as a list of rows of rationals. -/
abbrev Mat : Type := List (List ℚ)

/-- Row count of a matrix (`data.shape[0]`). -/
def Mat.rows (m : Mat) : ℕ := m.length

/-- Column count of a matrix (`data.shape[1]`), read off the first row. -/
def Mat.cols (m : Mat) : ℕ := (m.headD []).length

/-- `m` has shape `r × c`: `r` rows, every row of length `c`. -/
def Mat.IsShape (m : Mat) (r c : ℕ) : Prop :=
  m.length = r ∧ ∀ row ∈ m, row.length = c

instance (m : Mat) (r c : ℕ) : Decidable (m.IsShape r c) := by
  unfold Mat.IsShape; infer_instance

/-- Dot product of two rows (truncating at the shorter row). -/
def dotL : List ℚ → List ℚ → ℚ
  | [], _ => 0
  | _, [] => 0
  | a :: as, b :: bs => a * b + dotL as bs

/-- Column `j` of a matrix. -/
def Mat.col (m : Mat) (j : ℕ) : List ℚ := m.map (fun row => row.getD j 0)

/-- Modelled from the spec: `nn.Linear(features, weights)`, the matrix
product of an `n × d` feature batch with a `d × c` weight matrix. -/
def nnLinear (a b : Mat) : Mat :=
  a.map (fun r => (List.range b.cols).map (fun j => dotL r (b.col j)))

/-- Modelled from the spec: `nn.AddBias(features, bias)`, adding the single
bias row to every row of the batch. -/
def nnAddBias (m b : Mat) : Mat :=
  m.map (fun r => List.zipWith (· + ·) r (b.headD []))

/-- Modelled from the spec: `nn.ReLU`, elementwise `max 0`. -/
def nnReLU (m : Mat) : Mat := m.map (fun r => r.map (fun v => max v 0))

/-- Modelled from the spec: `nn.Add`, elementwise sum of two same-shape
matrices. -/
def nnAdd (a b : Mat) : Mat := List.zipWith (List.zipWith (· + ·)) a b

/-- Modelled from the spec: `nn.DotProduct(features, weights)` of two `1 × d`
nodes: a node containing the single number `⟨features, weights⟩`. -/
def nnDotProduct (x w : Mat) : Mat := [[dotL (x.headD []) (w.headD [])]]

/-- Modelled from the spec: `nn.as_scalar`, extracting the single number of a
`1 × 1` node. -/
def asScalar (m : Mat) : ℚ := (m.headD []).headD 0

/-- Modelled from the spec: `nn.Parameter.update(direction, multiplier)`,
the in-place update `data += multiplier * direction` (returned functionally). -/
def paramUpdate (w direction : Mat) (multiplier : ℚ) : Mat :=
  List.zipWith (List.zipWith (fun a b => a + multiplier * b)) w direction

/-- Elementwise matrix difference (used only to state that updating with
multiplier `-1` subtracts the input vector). -/
def matSub (a b : Mat) : Mat := List.zipWith (List.zipWith (· - ·)) a b

/-! ## PerceptronModel -/

/-- `PerceptronModel.run(x)`: the score node `nn.DotProduct(x, self.w)`. -/
def percRun (w x : Mat) : Mat := nnDotProduct x w

/-- `PerceptronModel.get_prediction(x)`: `1` if the score is `≥ 0`, else `-1`. -/
def getPrediction (w x : Mat) : ℤ :=
  if asScalar (percRun w x) ≥ 0 then 1 else -1

/-- One step of the body of the perceptron training loop, processing one
example `(data[0], data[1])` of a size-1 batch: update the weights and the
correction count exactly as the two branches of `PerceptronModel.train` do. -/
def percStep (wc : Mat × ℕ) (data : Mat × Mat) : Mat × ℕ :=
  if getPrediction wc.1 data.1 = -1 ∧ asScalar data.2 = 1 then
    (paramUpdate wc.1 data.1 1, wc.2 + 1)
  else if getPrediction wc.1 data.1 = 1 ∧ asScalar data.2 = -1 then
    (paramUpdate wc.1 data.1 (-1), wc.2 + 1)
  else
    (wc.1, wc.2)

/-- One full pass of `PerceptronModel.train` over the dataset
(`for data in dataset.iterate_once(1)`), starting with a zeroed correction
count.  The dataset is the list of `(x, y)` size-1 batches the iterator
yields. -/
def percEpoch (w : Mat) (ds : List (Mat × Mat)) : Mat × ℕ :=
  ds.foldl percStep (w, 0)

/-- `PerceptronModel.train`, fuelled: run passes until a pass makes zero
corrections (`while count != 0`); `none` when the fuel runs out first. -/
def percTrainGas (ds : List (Mat × Mat)) : ℕ → Mat → Option Mat
  | 0, _ => none
  | n + 1, w =>
    if (percEpoch w ds).2 = 0 then some (percEpoch w ds).1
    else percTrainGas ds n (percEpoch w ds).1

/-! ## Basic facts about the perceptron step -/

theorem asScalar_percRun (w x : Mat) :
    asScalar (percRun w x) = dotL (x.headD []) (w.headD []) := rfl

theorem getPrediction_eq_one (w x : Mat)
    (h : 0 ≤ dotL (x.headD []) (w.headD [])) : getPrediction w x = 1 := by
  unfold getPrediction
  simp only [asScalar_percRun]
  exact if_pos h

theorem getPrediction_eq_neg_one (w x : Mat)
    (h : dotL (x.headD []) (w.headD []) < 0) : getPrediction w x = -1 := by
  unfold getPrediction
  simp only [asScalar_percRun]
  exact if_neg (not_le.mpr h)

theorem getPrediction_eq_or (w x : Mat) :
    getPrediction w x = 1 ∨ getPrediction w x = -1 := by
  unfold getPrediction
  by_cases h : asScalar (percRun w x) ≥ 0 <;> simp [h]

/-- Neither branch of the training-loop body fires on example `data` at
weights `w`: no correction is made. -/
def noCorrection (w : Mat) (data : Mat × Mat) : Prop :=
  ¬(getPrediction w data.1 = -1 ∧ asScalar data.2 = 1) ∧
  ¬(getPrediction w data.1 = 1 ∧ asScalar data.2 = -1)

instance (w : Mat) (data : Mat × Mat) : Decidable (noCorrection w data) := by
  unfold noCorrection; infer_instance

theorem percStep_of_noCorrection {p : Mat × ℕ} {d : Mat × Mat}
    (h : noCorrection p.1 d) : percStep p d = p := by
  obtain ⟨h1, h2⟩ := h
  simp [percStep, h1, h2]

theorem percStep_count_of_correction {p : Mat × ℕ} {d : Mat × Mat}
    (h : ¬ noCorrection p.1 d) : (percStep p d).2 = p.2 + 1 := by
  by_cases h1 : getPrediction p.1 d.1 = -1 ∧ asScalar d.2 = 1
  · simp [percStep, h1]
  · have h2 : getPrediction p.1 d.1 = 1 ∧ asScalar d.2 = -1 := by
      unfold noCorrection at h; tauto
    simp [percStep, h1, h2]

theorem foldl_percStep_count_le (l : List (Mat × Mat)) :
    ∀ p : Mat × ℕ, p.2 ≤ (l.foldl percStep p).2 := by
  induction l with
  | nil => intro p; simp
  | cons d l ih =>
    intro p
    have h1 : p.2 ≤ (percStep p d).2 := by
      by_cases h : noCorrection p.1 d
      · rw [percStep_of_noCorrection h]
      · rw [percStep_count_of_correction h]; omega
    calc p.2 ≤ (percStep p d).2 := h1
      _ ≤ (l.foldl percStep (percStep p d)).2 := ih _
      _ = ((d :: l).foldl percStep p).2 := by rw [List.foldl_cons]

theorem foldl_percStep_count_eq (l : List (Mat × Mat)) :
    ∀ p : Mat × ℕ, (l.foldl percStep p).2 = p.2 →
      l.foldl percStep p = p ∧ ∀ d ∈ l, noCorrection p.1 d := by
  induction l with
  | nil => intro p _; simp
  | cons d l ih =>
    intro p hc
    by_cases h : noCorrection p.1 d
    · rw [List.foldl_cons, percStep_of_noCorrection h] at hc ⊢
      obtain ⟨hf, hall⟩ := ih p hc
      exact ⟨hf, by
        intro e he
        rcases List.mem_cons.1 he with rfl | he
        · exact h
        · exact hall e he⟩
    · exfalso
      have h2 : (percStep p d).2 = p.2 + 1 := percStep_count_of_correction h
      have hle : p.2 + 1 ≤ ((d :: l).foldl percStep p).2 := by
        rw [List.foldl_cons]
        have := foldl_percStep_count_le l (percStep p d)
        omega
      omega

theorem percEpoch_zero {w : Mat} {ds : List (Mat × Mat)}
    (h : (percEpoch w ds).2 = 0) :
    (percEpoch w ds).1 = w ∧ ∀ d ∈ ds, noCorrection w d := by
  obtain ⟨hf, hall⟩ := foldl_percStep_count_eq ds (w, 0) h
  exact ⟨by rw [percEpoch, hf], hall⟩

theorem percEpoch_of_noCorrection {w : Mat} {ds : List (Mat × Mat)}
    (h : ∀ d ∈ ds, noCorrection w d) : percEpoch w ds = (w, 0) := by
  have key : ∀ l : List (Mat × Mat), (∀ d ∈ l, noCorrection w d) →
      l.foldl percStep (w, 0) = (w, 0) := by
    intro l
    induction l with
    | nil => intro _; simp
    | cons d t ih =>
      intro hl
      rw [List.foldl_cons,
        percStep_of_noCorrection (p := ((w, 0) : Mat × ℕ))
          (hl d (List.mem_cons_self d t))]
      exact ih fun e he => hl e (List.mem_cons_of_mem d he)
  exact key ds h

theorem percTrainGas_some_epoch {ds : List (Mat × Mat)} :
    ∀ n w w', percTrainGas ds n w = some w' → (percEpoch w' ds).2 = 0 := by
  intro n
  induction n with
  | zero => intro w w' h; simp [percTrainGas] at h
  | succ n ih =>
    intro w w' h
    rw [percTrainGas] at h
    by_cases hc : (percEpoch w ds).2 = 0
    · rw [if_pos hc] at h
      obtain ⟨hf, _⟩ := percEpoch_zero hc
      have hw : w' = w := by rw [← Option.some_inj.1 h, hf]
      rw [hw]
      exact hc
    · rw [if_neg hc] at h
      exact ih _ _ h

/-- Auxiliary: multiplier `1` makes `paramUpdate` an elementwise addition. -/
theorem paramUpdate_one (w x : Mat) : paramUpdate w x 1 = nnAdd w x := by
  unfold paramUpdate nnAdd
  induction w generalizing x with
  | nil => simp
  | cons r w ih =>
    cases x with
    | nil => simp
    | cons s x =>
      simp only [List.zipWith_cons_cons, List.cons.injEq]
      refine ⟨?_, ih x⟩
      induction r generalizing s with
      | nil => simp
      | cons a r ihr =>
        cases s with
        | nil => simp
        | cons b s => simp [ihr s, one_mul]

/-- Auxiliary: multiplier `-1` makes `paramUpdate` an elementwise subtraction. -/
theorem paramUpdate_neg_one (w x : Mat) : paramUpdate w x (-1) = matSub w x := by
  unfold paramUpdate matSub
  induction w generalizing x with
  | nil => simp
  | cons r w ih =>
    cases x with
    | nil => simp
    | cons s x =>
      simp only [List.zipWith_cons_cons, List.cons.injEq]
      refine ⟨?_, ih x⟩
      induction r generalizing s with
      | nil => simp
      | cons a r ihr =>
        cases s with
        | nil => simp
        | cons b s =>
          simp only [List.zipWith_cons_cons, List.cons.injEq]
          exact ⟨by ring, ihr s⟩

/-- C1: each pass of `PerceptronModel.train` processes the dataset one
size-1 batch at a time; a misclassified example with label `+1` adds the
input vector to the weights, one with label `-1` subtracts it, a correctly
classified example changes nothing; and the loop terminates exactly when a
full pass makes zero corrections. -/
theorem perceptron_train_rule (ds : List (Mat × Mat)) :
    (∀ w c x ly,
      (getPrediction w x = -1 → asScalar ly = 1 →
        percStep (w, c) (x, ly) = (paramUpdate w x 1, c + 1) ∧
          paramUpdate w x 1 = nnAdd w x) ∧
      (getPrediction w x = 1 → asScalar ly = -1 →
        percStep (w, c) (x, ly) = (paramUpdate w x (-1), c + 1) ∧
          paramUpdate w x (-1) = matSub w x) ∧
      ((getPrediction w x : ℚ) = asScalar ly →
        percStep (w, c) (x, ly) = (w, c))) ∧
    (∀ n w w', percTrainGas ds n w = some w' → (percEpoch w' ds).2 = 0) ∧
    (∀ w, (percEpoch w ds).2 = 0 → percTrainGas ds 1 w = some w) ∧
    (∀ n w, (percEpoch w ds).2 ≠ 0 →
      percTrainGas ds (n + 1) w = percTrainGas ds n (percEpoch w ds).1) ∧
    (∀ w, (percEpoch w ds).2 = 0 ↔ ∀ d ∈ ds, noCorrection w d) := by
  refine ⟨?_, percTrainGas_some_epoch, ?_, ?_, ?_⟩
  · intro w c x ly
    refine ⟨?_, ?_, ?_⟩
    · intro hp hl
      exact ⟨by simp [percStep, hp, hl], paramUpdate_one w x⟩
    · intro hp hl
      refine ⟨?_, paramUpdate_neg_one w x⟩
      have hne : ¬ (getPrediction w x = -1 ∧ asScalar ly = 1) := by
        rintro ⟨h1, _⟩; rw [hp] at h1; exact absurd h1 (by decide)
      simp [percStep, hne, hp, hl]
    · intro hagree
      apply percStep_of_noCorrection
      rcases getPrediction_eq_or w x with hp | hp
      · refine ⟨?_, ?_⟩
        · rintro ⟨h1, _⟩; rw [hp] at h1; exact absurd h1 (by decide)
        · rintro ⟨_, h2⟩
          rw [hp] at hagree
          rw [← hagree] at h2
          norm_num at h2
      · refine ⟨?_, ?_⟩
        · rintro ⟨_, h2⟩
          rw [hp] at hagree
          rw [← hagree] at h2
          norm_num at h2
        · rintro ⟨h1, _⟩; rw [hp] at h1; exact absurd h1 (by decide)
  · intro w hc
    have hf := (percEpoch_zero hc).1
    rw [percTrainGas]
    simp [hc, hf]
  · intro n w hc
    rw [percTrainGas]
    simp [hc]
  · intro w
    constructor
    · intro h; exact (percEpoch_zero h).2
    · intro h; rw [percEpoch_of_noCorrection h]

/-- Concrete instantiation of the C1 theorem: a misclassified `+1` example
adds the input, and a dataset already classified correctly stops after one
pass. -/
theorem perceptron_train_rule_witness :
    percStep ([[-1]], 0) ([[1]], [[1]]) = (paramUpdate [[-1]] [[1]] 1, 1) ∧
    percTrainGas [([[1]], [[1]])] 1 [[1]] = some [[1]] := by
  constructor
  · exact (((perceptron_train_rule [([[1]], [[1]])]).1 [[-1]] 0 [[1]] [[1]]).1
      (by norm_num [getPrediction, asScalar, percRun, nnDotProduct, dotL])
      (by norm_num [asScalar])).1
  · exact (perceptron_train_rule [([[1]], [[1]])]).2.2.1 [[1]]
      (by norm_num [percEpoch, percStep, getPrediction, asScalar, percRun,
        nnDotProduct, dotL])

/-- C2: `get_prediction` returns `+1` when the score of `run` is `≥ 0`, `-1`
otherwise, and never any other value. -/
theorem get_prediction_sign (w x : Mat) :
    (0 ≤ asScalar (percRun w x) → getPrediction w x = 1) ∧
    (¬ 0 ≤ asScalar (percRun w x) → getPrediction w x = -1) ∧
    (getPrediction w x = 1 ∨ getPrediction w x = -1) := by
  unfold getPrediction
  by_cases h : asScalar (percRun w x) ≥ 0 <;> simp [h]

/-- Concrete instantiation of the prediction-sign theorem: a positive score
predicts `+1` and a negative score predicts `-1`. -/
theorem get_prediction_sign_witness :
    getPrediction [[1]] [[2]] = 1 ∧ getPrediction [[-1]] [[2]] = -1 :=
  ⟨(get_prediction_sign [[1]] [[2]]).1
      (by norm_num [asScalar, percRun, nnDotProduct, dotL]),
   (get_prediction_sign [[-1]] [[2]]).2.1
      (by norm_num [asScalar, percRun, nnDotProduct, dotL])⟩

/-! ## Vector algebra for the perceptron convergence proof -/

/-- Row-level form of `paramUpdate`: `w + m • x` componentwise. -/
def updRow (w x : List ℚ) (m : ℚ) : List ℚ :=
  List.zipWith (fun a b => a + m * b) w x

theorem dotL_nil_right (a : List ℚ) : dotL a [] = 0 := by
  cases a <;> rfl

theorem dotL_nil_left (b : List ℚ) : dotL [] b = 0 := by
  cases b <;> rfl

theorem dotL_comm (a : List ℚ) : ∀ b, dotL a b = dotL b a := by
  induction a with
  | nil => intro b; rw [dotL_nil_left, dotL_nil_right]
  | cons x a ih =>
    intro b
    cases b with
    | nil => rfl
    | cons y b => simp [dotL, ih b, mul_comm]

theorem dotL_self_nonneg (a : List ℚ) : 0 ≤ dotL a a := by
  induction a with
  | nil => simp [dotL]
  | cons x a ih => simp only [dotL]; nlinarith [sq_nonneg x]

theorem updRow_length (w x : List ℚ) (m : ℚ) :
    (updRow w x m).length = min w.length x.length := by
  simp [updRow]

theorem dotL_updRow_left (m : ℚ) :
    ∀ w x v : List ℚ, w.length = x.length →
      dotL (updRow w x m) v = dotL w v + m * dotL x v := by
  intro w
  induction w with
  | nil =>
    intro x v hx
    have : x = [] := List.eq_nil_of_length_eq_zero hx.symm
    subst this
    simp [updRow, dotL]
  | cons a w ih =>
    intro x v hx
    cases x with
    | nil => simp at hx
    | cons b x =>
      cases v with
      | nil => simp [dotL_nil_right]
      | cons c v =>
        simp only [updRow, List.zipWith_cons_cons, dotL]
        have hlen : w.length = x.length := by simpa using hx
        have := ih x v hlen
        rw [updRow] at this
        rw [this]
        ring

theorem dotL_updRow_right (m : ℚ) (w x v : List ℚ) (h : w.length = x.length) :
    dotL v (updRow w x m) = dotL v w + m * dotL v x := by
  rw [dotL_comm, dotL_updRow_left m w x v h, dotL_comm w v, dotL_comm x v]

theorem dotL_updRow_self (m : ℚ) (w x : List ℚ) (h : w.length = x.length) :
    dotL (updRow w x m) (updRow w x m) =
      dotL w w + 2 * m * dotL w x + m ^ 2 * dotL x x := by
  rw [dotL_updRow_left m w x _ h, dotL_updRow_right m w x w h,
    dotL_updRow_right m w x x h]
  have := dotL_comm w x
  ring_nf
  rw [dotL_comm x w]
  ring

/-- Cauchy–Schwarz for list dot products, by induction on the lists. -/
theorem dotL_sq_le (a : List ℚ) : ∀ b, (dotL a b) ^ 2 ≤ dotL a a * dotL b b := by
  induction a with
  | nil => intro b; simp [dotL]
  | cons x a ih =>
    intro b
    cases b with
    | nil =>
      rw [dotL_nil_right]
      have h1 : (0:ℚ) ≤ dotL (x :: a) (x :: a) := dotL_self_nonneg _
      simp [dotL]
    | cons y b =>
      have hIH := ih b
      have hA : (0:ℚ) ≤ dotL a a := dotL_self_nonneg a
      have hB : (0:ℚ) ≤ dotL b b := dotL_self_nonneg b
      simp only [dotL]
      rcases eq_or_lt_of_le hB with hB0 | hBpos
      · have hD0 : dotL a b = 0 := by
          have h1 : (dotL a b) ^ 2 ≤ 0 := by rw [← hB0] at hIH; simpa using hIH
          have h2 : (dotL a b) ^ 2 = 0 := le_antisymm h1 (sq_nonneg _)
          exact sq_eq_zero_iff.1 h2
        rw [hD0, ← hB0]
        nlinarith [mul_nonneg hA (sq_nonneg y)]
      · nlinarith [sq_nonneg (x * dotL b b - y * dotL a b),
          mul_pos hBpos hBpos, sq_nonneg (dotL a b),
          mul_nonneg hA hB, mul_nonneg (mul_nonneg hA hB) hB,
          mul_nonneg (sq_nonneg x) hB]

/-! ## Reachable weight rows of the perceptron update rule -/

/-- Weight rows reachable from `w0` by perceptron corrections on examples of
`E` (each example a data row with its scalar label), counting corrections:
an addition happens on a `+1`-labelled example with negative score, a
subtraction on a `-1`-labelled example with nonnegative score — exactly the
two branches of `PerceptronModel.train`. -/
inductive Reach (E : List (List ℚ × ℚ)) (w0 : List ℚ) : List ℚ → ℕ → Prop where
  | refl : Reach E w0 w0 0
  | plus {w : List ℚ} {k : ℕ} {x : List ℚ} {y : ℚ} :
      Reach E w0 w k → (x, y) ∈ E → y = 1 → dotL x w < 0 →
      Reach E w0 (updRow w x 1) (k + 1)
  | minus {w : List ℚ} {k : ℕ} {x : List ℚ} {y : ℚ} :
      Reach E w0 w k → (x, y) ∈ E → y = -1 → 0 ≤ dotL x w →
      Reach E w0 (updRow w x (-1)) (k + 1)

theorem Reach.length {E : List (List ℚ × ℚ)} {w0 : List ℚ} {d : ℕ}
    (hw0 : w0.length = d) (hE : ∀ e ∈ E, e.1.length = d) :
    ∀ {w k}, Reach E w0 w k → w.length = d := by
  intro w k h
  induction h with
  | refl => exact hw0
  | plus _ hmem _ _ ihw =>
    rw [updRow_length, ihw, hE _ hmem]
    exact Nat.min_self d
  | minus _ hmem _ _ ihw =>
    rw [updRow_length, ihw, hE _ hmem]
    exact Nat.min_self d

theorem Reach.inner {E : List (List ℚ × ℚ)} {w0 v : List ℚ} {d : ℕ} {γ : ℚ}
    (hw0 : w0.length = d) (hE : ∀ e ∈ E, e.1.length = d)
    (hm : ∀ e ∈ E, γ ≤ e.2 * dotL e.1 v) :
    ∀ {w k}, Reach E w0 w k → dotL w0 v + (k : ℚ) * γ ≤ dotL w v := by
  intro w k h
  induction h with
  | refl => simp
  | @plus w k x y hr hmem hy _ ih =>
    have hlen : w.length = x.length := by
      rw [Reach.length hw0 hE hr, hE _ hmem]
    rw [dotL_updRow_left 1 w x v hlen]
    have hmarg : γ ≤ dotL x v := by
      have h1 := hm _ hmem
      rw [hy, one_mul] at h1
      exact h1
    push_cast
    linarith
  | @minus w k x y hr hmem hy _ ih =>
    have hlen : w.length = x.length := by
      rw [Reach.length hw0 hE hr, hE _ hmem]
    rw [dotL_updRow_left (-1) w x v hlen]
    have hmarg : γ ≤ -1 * dotL x v := by
      have h1 := hm _ hmem
      rw [hy] at h1
      exact h1
    push_cast
    linarith

theorem Reach.norm {E : List (List ℚ × ℚ)} {w0 : List ℚ} {d : ℕ} {R : ℚ}
    (hw0 : w0.length = d) (hE : ∀ e ∈ E, e.1.length = d)
    (hR : ∀ e ∈ E, dotL e.1 e.1 ≤ R) :
    ∀ {w k}, Reach E w0 w k → dotL w w ≤ dotL w0 w0 + (k : ℚ) * R := by
  intro w k h
  induction h with
  | refl => simp
  | @plus w k x y hr hmem _ hneg ih =>
    have hlen : w.length = x.length := by
      rw [Reach.length hw0 hE hr, hE _ hmem]
    rw [dotL_updRow_self 1 w x hlen]
    have hcomm : dotL w x = dotL x w := dotL_comm w x
    have hxx : dotL x x ≤ R := hR _ hmem
    push_cast
    nlinarith
  | @minus w k x y hr hmem _ hpos ih =>
    have hlen : w.length = x.length := by
      rw [Reach.length hw0 hE hr, hE _ hmem]
    rw [dotL_updRow_self (-1) w x hlen]
    have hcomm : dotL w x = dotL x w := dotL_comm w x
    have hxx : dotL x x ≤ R := hR _ hmem
    push_cast
    nlinarith

theorem exists_pos_lb {α : Type} (f : α → ℚ) (l : List α)
    (h : ∀ a ∈ l, 0 < f a) : ∃ γ : ℚ, 0 < γ ∧ ∀ a ∈ l, γ ≤ f a := by
  induction l with
  | nil => exact ⟨1, one_pos, by simp⟩
  | cons a t ih =>
    obtain ⟨γ, hγ, hall⟩ := ih (fun b hb => h b (List.mem_cons_of_mem a hb))
    refine ⟨min γ (f a), lt_min hγ (h a (List.mem_cons_self a t)), ?_⟩
    intro b hb
    rcases List.mem_cons.1 hb with rfl | hb
    · exact min_le_right _ _
    · exact le_trans (min_le_left _ _) (hall b hb)

theorem exists_ub {α : Type} (f : α → ℚ) (l : List α) :
    ∃ R : ℚ, 0 ≤ R ∧ ∀ a ∈ l, f a ≤ R := by
  induction l with
  | nil => exact ⟨0, le_refl 0, by simp⟩
  | cons a t ih =>
    obtain ⟨R, hR0, hall⟩ := ih
    refine ⟨max R (f a), le_trans hR0 (le_max_left _ _), ?_⟩
    intro b hb
    rcases List.mem_cons.1 hb with rfl | hb
    · exact le_max_right _ _
    · exact le_trans (hall b hb) (le_max_left _ _)

theorem Reach.nil_k {w0 w : List ℚ} {k : ℕ} (h : Reach [] w0 w k) : k = 0 := by
  induction h with
  | refl => rfl
  | plus _ hmem _ _ _ => exact absurd hmem (List.not_mem_nil _)
  | minus _ hmem _ _ _ => exact absurd hmem (List.not_mem_nil _)

/-- Novikoff mistake bound: on separable data the number of perceptron
corrections reachable from `w0` is bounded. -/
theorem Reach.bound {E : List (List ℚ × ℚ)} {w0 v : List ℚ} {d : ℕ}
    {γ R : ℚ}
    (hw0 : w0.length = d) (hE : ∀ e ∈ E, e.1.length = d)
    (hγ : 0 < γ) (hm : ∀ e ∈ E, γ ≤ e.2 * dotL e.1 v)
    (hR0 : 0 ≤ R) (hR : ∀ e ∈ E, dotL e.1 e.1 ≤ R) :
    ∃ KB : ℚ, ∀ w k, Reach E w0 w k → (k : ℚ) ≤ KB := by
  cases E with
  | nil =>
    refine ⟨0, fun w k h => ?_⟩
    rw [Reach.nil_k h]
    simp
  | cons e0 E' =>
    set E := e0 :: E' with hEdef
    have hS : 0 < dotL v v := by
      have h1 : γ ≤ e0.2 * dotL e0.1 v := hm e0 (List.mem_cons_self _ _)
      have h2 : dotL e0.1 v ≠ 0 := by
        intro h0
        rw [h0, mul_zero] at h1
        exact absurd (lt_of_lt_of_le hγ h1) (lt_irrefl 0)
      have h3 : 0 < (dotL e0.1 v) ^ 2 := by positivity
      have h4 := dotL_sq_le e0.1 v
      nlinarith [dotL_self_nonneg e0.1]
    set S := dotL v v with hSdef
    set c0 := dotL w0 v with hc0def
    set B0 := dotL w0 w0 with hB0def
    have hB0 : (0:ℚ) ≤ B0 := dotL_self_nonneg w0
    set T : ℚ := B0 * S + R * S + 2 * |c0| * γ with hTdef
    have hT0 : 0 ≤ T := by
      have := abs_nonneg c0
      nlinarith
    refine ⟨max (T / γ ^ 2) (|c0| / γ), fun w k hreach => ?_⟩
    have hP : c0 + (k : ℚ) * γ ≤ dotL w v := Reach.inner hw0 hE hm hreach
    have hN : dotL w w ≤ B0 + (k : ℚ) * R := Reach.norm hw0 hE hR hreach
    have hCS : (dotL w v) ^ 2 ≤ dotL w w * S := dotL_sq_le w v
    rcases Nat.eq_zero_or_pos k with hk0 | hkpos
    · subst hk0
      push_cast
      exact le_max_of_le_right (by positivity)
    · have hk1 : (1:ℚ) ≤ (k:ℚ) := by exact_mod_cast hkpos
      by_cases hcase : c0 + (k:ℚ) * γ ≤ 0
      · have : (k:ℚ) * γ ≤ |c0| := by
          have := neg_abs_le c0
          linarith
        refine le_max_of_le_right ?_
        rw [le_div_iff hγ]
        exact this
      · push_neg at hcase
        have hPpos : (0:ℚ) < dotL w v := lt_of_lt_of_le hcase hP
        have hsq : (c0 + (k:ℚ) * γ) ^ 2 ≤ (B0 + (k:ℚ) * R) * S := by
          have h1 : (c0 + (k:ℚ) * γ) ^ 2 ≤ (dotL w v) ^ 2 := by
            apply pow_le_pow_left (le_of_lt hcase) hP
          have h2 : dotL w w * S ≤ (B0 + (k:ℚ) * R) * S :=
            mul_le_mul_of_nonneg_right hN (le_of_lt hS)
          linarith
        have hkey : γ ^ 2 * (k:ℚ) ≤ T := by
          have habs1 : -|c0| ≤ c0 := neg_abs_le c0
          have habs2 : c0 ≤ |c0| := le_abs_self c0
          have hkq : (0:ℚ) < (k:ℚ) := by linarith
          have hstep : γ ^ 2 * (k:ℚ) * (k:ℚ) ≤ T * (k:ℚ) := by
            rw [hTdef]
            nlinarith [hsq, sq_nonneg c0,
              mul_nonneg (mul_nonneg hB0 hS.le) (sub_nonneg.2 hk1),
              mul_nonneg (by linarith : (0:ℚ) ≤ c0 + |c0|)
                (mul_nonneg hγ.le hkq.le),
              mul_nonneg hR0 hS.le]
          exact (mul_le_mul_right hkq).1 hstep
        refine le_max_of_le_left ?_
        rw [le_div_iff (by positivity : (0:ℚ) < γ ^ 2)]
        linarith [hkey]

/-! ## Bridging the trained loop to the reachability relation -/

theorem getPrediction_eq_one_iff (w x : Mat) :
    getPrediction w x = 1 ↔ 0 ≤ dotL (x.headD []) (w.headD []) := by
  unfold getPrediction
  simp only [asScalar_percRun]
  by_cases h : 0 ≤ dotL (x.headD []) (w.headD [])
  · rw [if_pos h]; simpa using h
  · rw [if_neg h]; simpa using h

theorem getPrediction_eq_neg_one_iff (w x : Mat) :
    getPrediction w x = -1 ↔ dotL (x.headD []) (w.headD []) < 0 := by
  unfold getPrediction
  simp only [asScalar_percRun]
  by_cases h : 0 ≤ dotL (x.headD []) (w.headD [])
  · rw [if_pos h]; simpa using not_lt.2 h
  · rw [if_neg h]; simpa using lt_of_not_ge h

/-- The data row and scalar label of a dataset entry. -/
def exRow (p : Mat × Mat) : List ℚ × ℚ := (p.1.headD [], asScalar p.2)

/-- Well-formed perceptron dataset: each batch is a single `d`-dimensional
row with a `±1` scalar label. -/
def PercWF (d : ℕ) (ds : List (Mat × Mat)) : Prop :=
  ∀ p ∈ ds, p.1.length = 1 ∧ (p.1.headD []).length = d ∧
    (asScalar p.2 = 1 ∨ asScalar p.2 = -1)

theorem foldl_percStep_reach {d : ℕ} {ds : List (Mat × Mat)} {w0 : List ℚ}
    (hds : PercWF d ds) :
    ∀ l : List (Mat × Mat), (∀ p ∈ l, p ∈ ds) →
      ∀ (wr : List ℚ) (c k : ℕ), Reach (ds.map exRow) w0 wr k →
      ∃ wr' c', l.foldl percStep ([wr], c) = ([wr'], c') ∧ c ≤ c' ∧
        Reach (ds.map exRow) w0 wr' (k + (c' - c)) := by
  intro l
  induction l with
  | nil =>
    intro _ wr c k hr
    exact ⟨wr, c, rfl, le_refl c, by simpa⟩
  | cons p t ih =>
    intro hl wr c k hr
    have hpds : p ∈ ds := hl p (List.mem_cons_self p t)
    have hlt : ∀ q ∈ t, q ∈ ds := fun q hq => hl q (List.mem_cons_of_mem p hq)
    obtain ⟨hp1, hpd, hlab⟩ := hds p hpds
    obtain ⟨xr, hxr⟩ := List.length_eq_one.1 hp1
    by_cases b1 : getPrediction [wr] p.1 = -1 ∧ asScalar p.2 = 1
    · have hstep : percStep ([wr], c) p = ([updRow wr xr 1], c + 1) := by
        have b1x : getPrediction [wr] [xr] = -1 := hxr ▸ b1.1
        simp [percStep, hxr, b1x, b1.2, paramUpdate, updRow]
      have hdotneg : dotL xr wr < 0 := by
        have h1 := (getPrediction_eq_neg_one_iff [wr] p.1).1 b1.1
        rw [hxr] at h1
        simpa using h1
      have hmem : (xr, (1:ℚ)) ∈ ds.map exRow := by
        have hx : exRow p = (xr, 1) := by
          simp [exRow, hxr, b1.2]
        exact hx ▸ List.mem_map_of_mem exRow hpds
      have hr' : Reach (ds.map exRow) w0 (updRow wr xr 1) (k + 1) :=
        Reach.plus hr hmem rfl hdotneg
      rw [List.foldl_cons, hstep]
      obtain ⟨wr', c', hfold, hle, hr''⟩ := ih hlt (updRow wr xr 1) (c + 1)
        (k + 1) hr'
      refine ⟨wr', c', hfold, le_trans (Nat.le_succ c) hle, ?_⟩
      have harith : k + (c' - c) = k + 1 + (c' - (c + 1)) := by omega
      rw [harith]
      exact hr''
    · by_cases b2 : getPrediction [wr] p.1 = 1 ∧ asScalar p.2 = -1
      · have hstep : percStep ([wr], c) p = ([updRow wr xr (-1)], c + 1) := by
          have b2x : getPrediction [wr] [xr] = 1 := hxr ▸ b2.1
          simp [percStep, hxr, b2x, b2.2, paramUpdate, updRow]
        have hdotpos : 0 ≤ dotL xr wr := by
          have h1 := (getPrediction_eq_one_iff [wr] p.1).1 b2.1
          rw [hxr] at h1
          simpa using h1
        have hmem : (xr, (-1:ℚ)) ∈ ds.map exRow := by
          have hx : exRow p = (xr, -1) := by
            simp [exRow, hxr, b2.2]
          exact hx ▸ List.mem_map_of_mem exRow hpds
        have hr' : Reach (ds.map exRow) w0 (updRow wr xr (-1)) (k + 1) :=
          Reach.minus hr hmem rfl hdotpos
        rw [List.foldl_cons, hstep]
        obtain ⟨wr', c', hfold, hle, hr''⟩ := ih hlt (updRow wr xr (-1)) (c + 1)
          (k + 1) hr'
        refine ⟨wr', c', hfold, le_trans (Nat.le_succ c) hle, ?_⟩
        have harith : k + (c' - c) = k + 1 + (c' - (c + 1)) := by omega
        rw [harith]
        exact hr''
      · have hstep : percStep ([wr], c) p = ([wr], c) :=
          percStep_of_noCorrection (p := (([wr], c) : Mat × ℕ)) ⟨b1, b2⟩
        rw [List.foldl_cons, hstep]
        exact ih hlt wr c k hr

theorem percTrainGas_none_reach {d : ℕ} {ds : List (Mat × Mat)} {w0 : List ℚ}
    (hds : PercWF d ds) :
    ∀ (n : ℕ) (wr : List ℚ) (k : ℕ), Reach (ds.map exRow) w0 wr k →
      percTrainGas ds n [wr] = none →
      ∃ wr' k', Reach (ds.map exRow) w0 wr' k' ∧ n + k ≤ k' := by
  intro n
  induction n with
  | zero => exact fun wr k hr _ => ⟨wr, k, hr, by omega⟩
  | succ n ih =>
    intro wr k hr hnone
    obtain ⟨wr', c', hfold, _, hr'⟩ :=
      foldl_percStep_reach hds ds (fun p hp => hp) wr 0 k hr
    have hep : percEpoch [wr] ds = ([wr'], c') := hfold
    rw [percTrainGas, hep] at hnone
    by_cases hc : c' = 0
    · rw [if_pos (by simpa using hc)] at hnone
      exact absurd hnone (by simp)
    · rw [if_neg (by simpa using hc)] at hnone
      obtain ⟨wr'', k'', hr'', hk''⟩ := ih wr' (k + (c' - 0)) hr' hnone
      exact ⟨wr'', k'', hr'', by omega⟩

/-- C3: on a linearly separable dataset of `±1`-labelled rows,
`PerceptronModel.train` terminates (some fuel suffices), and the returned
weights classify every example of the dataset according to its label. -/
theorem perceptron_converges (d : ℕ) (ds : List (Mat × Mat)) (w0 : Mat)
    (hw0 : w0.length = 1 ∧ (w0.headD []).length = d)
    (hds : PercWF d ds)
    (hsep : ∃ v : List ℚ, v.length = d ∧
      ∀ p ∈ ds, 0 < asScalar p.2 * dotL (p.1.headD []) v) :
    ∃ n w', percTrainGas ds n w0 = some w' ∧
      ∀ p ∈ ds, (asScalar p.2 = 1 → getPrediction w' p.1 = 1) ∧
        (asScalar p.2 = -1 → getPrediction w' p.1 = -1) := by
  obtain ⟨v, hvlen, hvsep⟩ := hsep
  obtain ⟨a, ha⟩ := List.length_eq_one.1 hw0.1
  have halen : a.length = d := by
    have := hw0.2
    rw [ha] at this
    simpa using this
  have hE : ∀ e ∈ ds.map exRow, e.1.length = d := by
    intro e he
    obtain ⟨p, hp, rfl⟩ := List.mem_map.1 he
    exact (hds p hp).2.1
  have hEm : ∀ e ∈ ds.map exRow, 0 < e.2 * dotL e.1 v := by
    intro e he
    obtain ⟨p, hp, rfl⟩ := List.mem_map.1 he
    exact hvsep p hp
  obtain ⟨γ, hγ, hm⟩ := exists_pos_lb (fun e => e.2 * dotL e.1 v)
    (ds.map exRow) hEm
  obtain ⟨R, hR0, hR⟩ := exists_ub (fun e => dotL e.1 e.1) (ds.map exRow)
  obtain ⟨KB, hKB⟩ := Reach.bound halen hE hγ hm hR0 hR
  set N : ℕ := Nat.ceil KB + 1 with hN
  cases hgas : percTrainGas ds N [a] with
  | none =>
    exfalso
    obtain ⟨wr', k', hr', hk'⟩ :=
      percTrainGas_none_reach hds N a 0 Reach.refl hgas
    have h1 : (k' : ℚ) ≤ KB := hKB wr' k' hr'
    have h2 : KB ≤ (Nat.ceil KB : ℚ) := Nat.le_ceil KB
    have h3 : (N : ℚ) ≤ (k' : ℚ) := by exact_mod_cast le_trans (by omega) hk'
    rw [hN] at h3
    push_cast at h3
    linarith
  | some w' =>
    refine ⟨N, w', by rw [ha]; exact hgas, ?_⟩
    have hzero : (percEpoch w' ds).2 = 0 :=
      percTrainGas_some_epoch N [a] w' hgas
    have hnc : ∀ p ∈ ds, noCorrection w' p := (percEpoch_zero hzero).2
    intro p hp
    obtain ⟨hnc1, hnc2⟩ := hnc p hp
    constructor
    · intro hy
      rcases getPrediction_eq_or w' p.1 with hpred | hpred
      · exact hpred
      · exact absurd ⟨hpred, hy⟩ hnc1
    · intro hy
      rcases getPrediction_eq_or w' p.1 with hpred | hpred
      · exact absurd ⟨hpred, hy⟩ hnc2
      · exact hpred

/-- Concrete instantiation of the convergence theorem on a separable
one-dimensional dataset. -/
theorem perceptron_converges_witness :
    ∃ n w', percTrainGas [([[1]], [[1]]), ([[-1]], [[-1]])] n [[0]] = some w' ∧
      ∀ p ∈ [(([[1]] : Mat), ([[1]] : Mat)), ([[-1]], [[-1]])],
        (asScalar p.2 = 1 → getPrediction w' p.1 = 1) ∧
        (asScalar p.2 = -1 → getPrediction w' p.1 = -1) :=
  perceptron_converges 1 [([[1]], [[1]]), ([[-1]], [[-1]])] [[0]]
    (by norm_num)
    (by norm_num [PercWF, asScalar])
    ⟨[1], by norm_num, by norm_num [asScalar, dotL]⟩

/-! ## RegressionModel -/

/-- State of a `RegressionModel` instance: the four parameter tensors and the
two plain attributes set in `__init__`. -/
structure RegState where
  w_1 : Mat
  b_1 : Mat
  w_2 : Mat
  b_2 : Mat
  batch_size : ℕ
  alpha : ℚ

/-- `RegressionModel.__init__`: parameters come from the external random
initializer (their shapes are `(1,400)`, `(1,400)`, `(400,1)`, `(1,1)`);
`batch_size` starts at `0` and `alpha` at `-0.01`. -/
def regInit (w1 b1 w2 b2 : Mat) : RegState :=
  ⟨w1, b1, w2, b2, 0, -1/100⟩

/-- The pure forward computation of `RegressionModel.run`:
`AddBias(Linear(ReLU(AddBias(Linear(x, w_1), b_1)), w_2), b_2)`. -/
def regNet (s : RegState) (x : Mat) : Mat :=
  nnAddBias (nnLinear (nnReLU (nnAddBias (nnLinear x s.w_1) s.b_1)) s.w_2) s.b_2

/-- `RegressionModel.run`: records the batch size from the input shape when
it is still `0`, then returns the forward value. -/
def regRun (s : RegState) (x : Mat) : RegState × Mat :=
  if s.batch_size = 0 then ({ s with batch_size := x.rows }, regNet s x)
  else (s, regNet s x)

/-- `RegressionModel.get_loss`: `SquareLoss(run(x), y)` as a scalar, with the
numeric loss function `sl` an external collaborator. -/
def regGetLoss (sl : Mat → Mat → ℚ) (s : RegState) (x y : Mat) :
    RegState × ℚ :=
  ((regRun s x).1, sl (regRun s x).2 y)

/-- Gradients of the loss node with respect to `[w_1, b_1, w_2, b_2]`,
computed by the external autodiff engine from the state and the batch. -/
abbrev RegGrad : Type := RegState → Mat → Mat → Mat × Mat × Mat × Mat

/-- One iteration of the inner loop of `RegressionModel.train`: compute the
loss of the batch, accumulate its scalar, and update each parameter with the
matching gradient scaled by `alpha`. -/
def regEpochStep (g : RegGrad) (sl : Mat → Mat → ℚ) (sL : RegState × ℚ)
    (b : Mat × Mat) : RegState × ℚ :=
  ((fun s' gr =>
    { s' with
      w_1 := paramUpdate s'.w_1 gr.1 s'.alpha
      b_1 := paramUpdate s'.b_1 gr.2.1 s'.alpha
      w_2 := paramUpdate s'.w_2 gr.2.2.1 s'.alpha
      b_2 := paramUpdate s'.b_2 gr.2.2.2 s'.alpha })
      (regGetLoss sl sL.1 b.1 b.2).1
      (g (regGetLoss sl sL.1 b.1 b.2).1 b.1 b.2),
    sL.2 + (regGetLoss sl sL.1 b.1 b.2).2)

/-- One epoch of `RegressionModel.train`: fold the inner loop over the
batches, starting from a zeroed loss accumulator. -/
def regEpoch (g : RegGrad) (sl : Mat → Mat → ℚ) (batches : List (Mat × Mat))
    (s : RegState) : RegState × ℚ :=
  batches.foldl (regEpochStep g sl) (s, 0)

/-- Modelled from the spec: the dataset seen by `RegressionModel.train`;
`iter` is `iterate_once` (batch size ↦ the finite batch sequence) and
`numExamples` is `dataset.x.shape[0]`. -/
structure RegDataset where
  iter : ℕ → List (Mat × Mat)
  numExamples : ℕ

/-- `RegressionModel.train`, fuelled: epochs run until the accumulated epoch
loss per example drops below `0.02`; the final state and the last epoch's
accumulated loss are returned. -/
def regTrain (g : RegGrad) (sl : Mat → Mat → ℚ) (D : RegDataset) :
    ℕ → RegState → Option (RegState × ℚ)
  | 0, _ => none
  | n + 1, s =>
    if (regEpoch g sl (D.iter s.batch_size) s).2 / (D.numExamples : ℚ)
        < 2/100 then
      some (regEpoch g sl (D.iter s.batch_size) s)
    else
      regTrain g sl D n (regEpoch g sl (D.iter s.batch_size) s).1

/-- The successive batch-size arguments `RegressionModel.train` passes to
`dataset.iterate_once`, one per epoch, mirroring `regTrain`. -/
def regIterArgs (g : RegGrad) (sl : Mat → Mat → ℚ) (D : RegDataset) :
    ℕ → RegState → List ℕ
  | 0, _ => []
  | n + 1, s =>
    s.batch_size ::
      (if (regEpoch g sl (D.iter s.batch_size) s).2 / (D.numExamples : ℚ)
          < 2/100 then []
       else regIterArgs g sl D n (regEpoch g sl (D.iter s.batch_size) s).1)

/-! ## DigitClassificationModel -/

/-- State of a `DigitClassificationModel` instance. -/
structure DigitState where
  w_1 : Mat
  b_1 : Mat
  w_2 : Mat
  b_2 : Mat
  batch_size : ℕ
  alpha : ℚ

/-- `DigitClassificationModel.__init__`: random parameters of shapes
`(784,100)`, `(1,100)`, `(100,10)`, `(1,10)`; `batch_size = 5`,
`alpha = -0.01`. -/
def digitInit (w1 b1 w2 b2 : Mat) : DigitState :=
  ⟨w1, b1, w2, b2, 5, -1/100⟩

/-- The forward computation of `DigitClassificationModel.run`. -/
def digitNet (s : DigitState) (x : Mat) : Mat :=
  nnAddBias (nnLinear (nnReLU (nnAddBias (nnLinear x s.w_1) s.b_1)) s.w_2) s.b_2

/-- `DigitClassificationModel.run`: a pure forward pass touching no state. -/
def digitRun (s : DigitState) (x : Mat) : DigitState × Mat :=
  (s, digitNet s x)

/-- Gradients of the softmax loss node with respect to
`[w_1, b_1, w_2, b_2]`, from the external autodiff engine. -/
abbrev DigitGrad : Type := DigitState → Mat → Mat → Mat × Mat × Mat × Mat

/-- One iteration of the inner loop of `DigitClassificationModel.train`. -/
def digitEpochStep (g : DigitGrad) (s : DigitState) (b : Mat × Mat) :
    DigitState :=
  ((fun gr =>
    { s with
      w_1 := paramUpdate s.w_1 gr.1 s.alpha
      b_1 := paramUpdate s.b_1 gr.2.1 s.alpha
      w_2 := paramUpdate s.w_2 gr.2.2.1 s.alpha
      b_2 := paramUpdate s.b_2 gr.2.2.2 s.alpha })
    (g s b.1 b.2))

/-- One epoch of `DigitClassificationModel.train`. -/
def digitEpoch (g : DigitGrad) (batches : List (Mat × Mat))
    (s : DigitState) : DigitState :=
  batches.foldl (digitEpochStep g) s

/-- Modelled from the spec: the dataset seen by
`DigitClassificationModel.train`, with `vacc` its
`get_validation_accuracy` query, a function of the current model state. -/
structure DigitDataset where
  iter : ℕ → List (Mat × Mat)
  vacc : DigitState → ℚ

/-- `DigitClassificationModel.train`, fuelled: epochs run until the
validation accuracy reaches `0.975`. -/
def digitTrain (g : DigitGrad) (D : DigitDataset) :
    ℕ → DigitState → Option DigitState
  | 0, _ => none
  | n + 1, s =>
    if D.vacc (digitEpoch g (D.iter s.batch_size) s) ≥ 975/1000 then
      some (digitEpoch g (D.iter s.batch_size) s)
    else
      digitTrain g D n (digitEpoch g (D.iter s.batch_size) s)

/-! ## LanguageIDModel -/

/-- State of a `LanguageIDModel` instance. -/
structure LangState where
  w_1 : Mat
  w_2 : Mat
  w_3 : Mat
  batch_size : ℕ
  alpha : ℚ

/-- `LanguageIDModel.__init__`: random parameters of shapes `(47,100)`,
`(100,100)`, `(100,5)`; `batch_size = 0`, `alpha = -0.01`. -/
def langInit (w1 w2 w3 : Mat) : LangState :=
  ⟨w1, w2, w3, 0, -1/100⟩

/-- The loop of `LanguageIDModel.run` over `range(len(xs))`, skipping index
`0` and folding `f ← ReLU(Add(Linear(xs[i], w_1), Linear(f, w_2)))`; each
`xs[i]` access is an `Option` lookup, so an out-of-bounds index fails. -/
def langHidden (w1 w2 : Mat) (xs : List Mat) (f0 : Mat) : Option Mat :=
  (List.range xs.length).foldlM
    (fun f i =>
      if i = 0 then some f
      else (xs.get? i).map
        (fun xi => nnReLU (nnAdd (nnLinear xi w1) (nnLinear f w2))))
    f0

/-- `LanguageIDModel.run`: reads `xs[0]` to auto-detect the batch size when
it is still `0`, starts the hidden state at `ReLU(Linear(xs[0], w_1))`,
folds the recurrence, and projects with `w_3`; `none` models the uncaught
`IndexError` on an out-of-bounds `xs[...]` access. -/
def langRun (s : LangState) (xs : List Mat) : Option (LangState × Mat) := do
  let bs ← if s.batch_size = 0 then (xs.get? 0).map Mat.rows
           else some s.batch_size
  let x0 ← xs.get? 0
  let f ← langHidden s.w_1 s.w_2 xs (nnReLU (nnLinear x0 s.w_1))
  some ({ s with batch_size := bs }, nnLinear f s.w_3)

/-- `LanguageIDModel.get_loss`: `SoftmaxLoss(run(xs), y)` as a scalar, the
numeric loss `sm` being an external collaborator. -/
def langGetLoss (sm : Mat → Mat → ℚ) (s : LangState) (xs : List Mat)
    (y : Mat) : Option (LangState × ℚ) :=
  (langRun s xs).map (fun r => (r.1, sm r.2 y))

/-- Gradients of the loss node with respect to `[w_1, w_2, w_3]`, from the
external autodiff engine. -/
abbrev LangGrad : Type := LangState → List Mat → Mat → Mat × Mat × Mat

/-- One iteration of the inner loop of `LanguageIDModel.train`. -/
def langEpochStep (g : LangGrad) (s : LangState) (b : List Mat × Mat) :
    Option LangState :=
  (langRun s b.1).map (fun r =>
    ((fun gr =>
      { r.1 with
        w_1 := paramUpdate r.1.w_1 gr.1 r.1.alpha
        w_2 := paramUpdate r.1.w_2 gr.2.1 r.1.alpha
        w_3 := paramUpdate r.1.w_3 gr.2.2 r.1.alpha })
      (g r.1 b.1 b.2)))

/-- One epoch of `LanguageIDModel.train`; a failing batch propagates. -/
def langEpoch (g : LangGrad) (batches : List (List Mat × Mat))
    (s : LangState) : Option LangState :=
  batches.foldlM (langEpochStep g) s

/-- Modelled from the spec: the dataset seen by `LanguageIDModel.train`. -/
structure LangDataset where
  iter : ℕ → List (List Mat × Mat)
  vacc : LangState → ℚ

/-- `LanguageIDModel.train`, fuelled: epochs run until the validation
accuracy reaches `0.83`. -/
def langTrain (g : LangGrad) (D : LangDataset) :
    ℕ → LangState → Option LangState
  | 0, _ => none
  | n + 1, s =>
    match langEpoch g (D.iter s.batch_size) s with
    | none => none
    | some s' =>
      if D.vacc s' ≥ 83/100 then some s' else langTrain g D n s'

/-- C4: whenever a training loop returns, its model-specific convergence
predicate holds at the returned state: the regression loop returns the
result of an epoch whose accumulated loss per example is below `0.02`, and
the classification and language loops return states whose validation
accuracy is at least `0.975` and `0.83` respectively. -/
theorem train_convergence_predicates :
    (∀ (g : RegGrad) (sl : Mat → Mat → ℚ) (D : RegDataset) (n : ℕ)
      (s s' : RegState) (L : ℚ),
      regTrain g sl D n s = some (s', L) →
        L / (D.numExamples : ℚ) < 2/100 ∧
        ∃ s0, regEpoch g sl (D.iter s0.batch_size) s0 = (s', L)) ∧
    (∀ (g : DigitGrad) (D : DigitDataset) (n : ℕ) (s s' : DigitState),
      digitTrain g D n s = some s' → D.vacc s' ≥ 975/1000) ∧
    (∀ (g : LangGrad) (D : LangDataset) (n : ℕ) (s s' : LangState),
      langTrain g D n s = some s' → D.vacc s' ≥ 83/100) := by
  refine ⟨fun g sl D n => ?_, fun g D n => ?_, fun g D n => ?_⟩
  · induction n with
    | zero => intro s s' L h; exact absurd h (by simp [regTrain])
    | succ n ih =>
      intro s s' L h
      rw [regTrain] at h
      by_cases hc : (regEpoch g sl (D.iter s.batch_size) s).2 /
          (D.numExamples : ℚ) < 2/100
      · rw [if_pos hc] at h
        have he := Option.some_inj.1 h
        refine ⟨?_, s, he⟩
        have hL : L = (regEpoch g sl (D.iter s.batch_size) s).2 := by
          rw [he]
        rw [hL]
        exact hc
      · rw [if_neg hc] at h
        exact ih _ s' L h
  · induction n with
    | zero => intro s s' h; exact absurd h (by simp [digitTrain])
    | succ n ih =>
      intro s s' h
      rw [digitTrain] at h
      by_cases hc : D.vacc (digitEpoch g (D.iter s.batch_size) s) ≥ 975/1000
      · rw [if_pos hc] at h
        rw [← Option.some_inj.1 h]
        exact hc
      · rw [if_neg hc] at h
        exact ih _ s' h
  · induction n with
    | zero => intro s s' h; exact absurd h (by simp [langTrain])
    | succ n ih =>
      intro s s' h
      rw [langTrain] at h
      cases hep : langEpoch g (D.iter s.batch_size) s with
      | none => rw [hep] at h; exact absurd h (by simp)
      | some s'' =>
        rw [hep] at h
        by_cases hc : D.vacc s'' ≥ 83/100
        · simp only [hc, if_true] at h
          rw [← Option.some_inj.1 h]
          exact hc
        · simp only [hc, if_false] at h
          exact ih s'' s' h

/-- Concrete instantiation of the convergence-predicate theorem on trivial
datasets. -/
theorem train_convergence_predicates_witness :
    ((0:ℚ) / ((1:ℕ):ℚ) < 2/100 ∧ ∃ s0 : RegState,
      regEpoch (fun _ _ _ => ([], [], [], [])) (fun _ _ => 0)
        ((RegDataset.mk (fun _ => []) 1).iter s0.batch_size) s0
        = (regInit [] [] [] [], 0)) ∧
    (DigitDataset.mk (fun _ => []) (fun _ => 1)).vacc (digitInit [] [] [] [])
      ≥ 975/1000 ∧
    (LangDataset.mk (fun _ => []) (fun _ => 1)).vacc (langInit [] [] [])
      ≥ 83/100 := by
  refine ⟨train_convergence_predicates.1 (fun _ _ _ => ([], [], [], []))
      (fun _ _ => 0) (RegDataset.mk (fun _ => []) 1) 1 (regInit [] [] [] [])
      (regInit [] [] [] []) 0 ?_,
    train_convergence_predicates.2.1 (fun _ _ _ => ([], [], [], []))
      (DigitDataset.mk (fun _ => []) (fun _ => 1)) 1 (digitInit [] [] [] [])
      (digitInit [] [] [] []) ?_,
    train_convergence_predicates.2.2 (fun _ _ _ => ([], [], []))
      (LangDataset.mk (fun _ => []) (fun _ => 1)) 1 (langInit [] [] [])
      (langInit [] [] []) ?_⟩
  · rw [regTrain]
    norm_num [regEpoch]
  · rw [digitTrain]
    norm_num [digitEpoch]
  · rw [langTrain]
    norm_num [langEpoch]

/-! ## Batch-size auto-detection (RegressionModel) -/

theorem regRun_batch_size (s : RegState) (x : Mat) :
    (regRun s x).1.batch_size =
      if s.batch_size = 0 then Mat.rows x else s.batch_size := by
  by_cases h : s.batch_size = 0 <;> simp [regRun, h]

theorem regEpochStep_batch_size (g : RegGrad) (sl : Mat → Mat → ℚ)
    (sL : RegState × ℚ) (b : Mat × Mat) :
    (regEpochStep g sl sL b).1.batch_size =
      if sL.1.batch_size = 0 then Mat.rows b.1 else sL.1.batch_size := by
  show (regGetLoss sl sL.1 b.1 b.2).1.batch_size = _
  show (regRun sL.1 b.1).1.batch_size = _
  exact regRun_batch_size sL.1 b.1

theorem regEpoch_bs_of_ne (g : RegGrad) (sl : Mat → Mat → ℚ) :
    ∀ (l : List (Mat × Mat)) (sL : RegState × ℚ), sL.1.batch_size ≠ 0 →
      (l.foldl (regEpochStep g sl) sL).1.batch_size = sL.1.batch_size := by
  intro l
  induction l with
  | nil => intro sL _; rfl
  | cons b t ih =>
    intro sL h
    rw [List.foldl_cons]
    have hstep : (regEpochStep g sl sL b).1.batch_size = sL.1.batch_size := by
      rw [regEpochStep_batch_size, if_neg h]
    rw [ih (regEpochStep g sl sL b) (by rw [hstep]; exact h), hstep]

theorem regIterArgs_const (g : RegGrad) (sl : Mat → Mat → ℚ) (D : RegDataset)
    (r : ℕ) (hr : r ≠ 0) :
    ∀ (n : ℕ) (s : RegState), s.batch_size = r →
      ∀ bs ∈ regIterArgs g sl D n s, bs = r := by
  intro n
  induction n with
  | zero => intro s _ bs hbs; exact absurd hbs (by simp [regIterArgs])
  | succ n ih =>
    intro s hs bs hbs
    rw [regIterArgs] at hbs
    rcases List.mem_cons.1 hbs with rfl | hbs
    · exact hs
    · by_cases hc : (regEpoch g sl (D.iter s.batch_size) s).2 /
          (D.numExamples : ℚ) < 2/100
      · rw [if_pos hc] at hbs
        exact absurd hbs (List.not_mem_nil bs)
      · rw [if_neg hc] at hbs
        refine ih (regEpoch g sl (D.iter s.batch_size) s).1 ?_ bs hbs
        have := regEpoch_bs_of_ne g sl (D.iter s.batch_size) (s, 0)
          (by simpa [hs] using hr)
        simpa [regEpoch, hs] using this

/-- C5: a fresh `RegressionModel` has `batch_size = 0`; the first `run` on a
state with `batch_size = 0` records the row count of its input; and once a
(nonempty) first input has been observed, every batch size that `train`
passes to `iterate_once` equals that recorded row count. -/
theorem reg_batch_size_autodetect :
    (∀ w1 b1 w2 b2, (regInit w1 b1 w2 b2).batch_size = 0) ∧
    (∀ s x, s.batch_size = 0 → (regRun s x).1.batch_size = Mat.rows x) ∧
    (∀ (g : RegGrad) (sl : Mat → Mat → ℚ) (D : RegDataset) (n : ℕ)
      (w1 b1 w2 b2 x : Mat), 0 < Mat.rows x →
      ∀ bs ∈ regIterArgs g sl D n (regRun (regInit w1 b1 w2 b2) x).1,
        bs = Mat.rows x) := by
  refine ⟨fun _ _ _ _ => rfl, ?_, ?_⟩
  · intro s x h
    rw [regRun_batch_size, if_pos h]
  · intro g sl D n w1 b1 w2 b2 x hx
    refine regIterArgs_const g sl D (Mat.rows x) (Nat.pos_iff_ne_zero.1 hx) n
      _ ?_
    rw [regRun_batch_size,
      if_pos (show (regInit w1 b1 w2 b2).batch_size = 0 from rfl)]

/-- Concrete instantiation of the batch-size auto-detection theorem. -/
theorem reg_batch_size_autodetect_witness :
    (regRun (regInit [] [] [] []) [[0]]).1.batch_size = Mat.rows [[0]] ∧
    ∀ bs ∈ regIterArgs (fun _ _ _ => ([], [], [], [])) (fun _ _ => 0)
        (RegDataset.mk (fun _ => []) 1) 1
        (regRun (regInit [] [] [] []) [[0]]).1,
      bs = Mat.rows [[0]] :=
  ⟨reg_batch_size_autodetect.2.1 (regInit [] [] [] []) [[0]] rfl,
   reg_batch_size_autodetect.2.2 (fun _ _ _ => ([], [], [], []))
     (fun _ _ => 0) (RegDataset.mk (fun _ => []) 1) 1 [] [] [] [] [[0]]
     (by decide)⟩

/-! ## Output shapes -/

/-- State-passing form of `PerceptronModel.run`: it reads `self.w` and
writes nothing. -/
def percRunS (w x : Mat) : Mat × Mat := (w, nnDotProduct x w)

theorem isShape_nnLinear {b : Mat} {k c : ℕ} (hb : b.IsShape k c)
    (hk : k ≠ 0) (a : Mat) : (nnLinear a b).IsShape a.length c := by
  obtain ⟨hlen, hrows⟩ := hb
  cases b with
  | nil => exact absurd hlen.symm hk
  | cons r0 bt =>
    have hc : Mat.cols (r0 :: bt) = c := hrows r0 (List.mem_cons_self r0 bt)
    constructor
    · simp [nnLinear]
    · intro row hrow
      obtain ⟨r, _, rfl⟩ := List.mem_map.1 hrow
      simp [hc]

theorem isShape_nnAddBias {m bb : Mat} {n c : ℕ} (hm : m.IsShape n c)
    (hb : bb.IsShape 1 c) : (nnAddBias m bb).IsShape n c := by
  obtain ⟨hmlen, hmrows⟩ := hm
  obtain ⟨hblen, hbrows⟩ := hb
  cases bb with
  | nil => simp at hblen
  | cons br bt =>
    have hbr : br.length = c := hbrows br (List.mem_cons_self br bt)
    constructor
    · simp [nnAddBias, hmlen]
    · intro row hrow
      obtain ⟨r, hr, rfl⟩ := List.mem_map.1 hrow
      simp [hmrows r hr, hbr]

theorem isShape_nnReLU {m : Mat} {n c : ℕ} (hm : m.IsShape n c) :
    (nnReLU m).IsShape n c := by
  obtain ⟨hmlen, hmrows⟩ := hm
  constructor
  · simp [nnReLU, hmlen]
  · intro row hrow
    obtain ⟨r, hr, rfl⟩ := List.mem_map.1 hrow
    simp [hmrows r hr]

theorem nnAdd_rows_length {c : ℕ} :
    ∀ a b : Mat, (∀ r ∈ a, r.length = c) → (∀ r ∈ b, r.length = c) →
      ∀ row ∈ nnAdd a b, row.length = c := by
  intro a
  induction a with
  | nil => intro b _ _ row hrow; simp [nnAdd] at hrow
  | cons ra ta ih =>
    intro b ha hb row hrow
    cases b with
    | nil => simp [nnAdd] at hrow
    | cons rb tb =>
      simp only [nnAdd, List.zipWith_cons_cons] at hrow
      rcases List.mem_cons.1 hrow with rfl | hrow
      · simp [ha ra (List.mem_cons_self ra ta), hb rb (List.mem_cons_self rb tb)]
      · exact ih tb (fun r hr => ha r (List.mem_cons_of_mem ra hr))
          (fun r hr => hb r (List.mem_cons_of_mem rb hr)) row hrow

theorem isShape_nnAdd {a b : Mat} {n c : ℕ} (ha : a.IsShape n c)
    (hb : b.IsShape n c) : (nnAdd a b).IsShape n c := by
  refine ⟨?_, nnAdd_rows_length a b ha.2 hb.2⟩
  simp [nnAdd, ha.1, hb.1]

theorem isShape_nnDotProduct (x w : Mat) :
    (nnDotProduct x w).IsShape 1 1 := by
  simp [nnDotProduct, Mat.IsShape]

/-! ## Structural lemmas for the language model's run -/

theorem langRun_nil (s : LangState) : langRun s [] = none := by
  by_cases h : s.batch_size = 0 <;> simp [langRun, h]

theorem langRun_cons (s : LangState) (x0 : Mat) (t : List Mat) :
    langRun s (x0 :: t) =
      (langHidden s.w_1 s.w_2 (x0 :: t) (nnReLU (nnLinear x0 s.w_1))).map
        (fun f => ({ s with batch_size :=
            if s.batch_size = 0 then Mat.rows x0 else s.batch_size },
          nnLinear f s.w_3)) := by
  by_cases h : s.batch_size = 0 <;>
    simp [langRun, h, Option.map_eq_bind]

theorem foldlM_langStep_some {w1 w2 : Mat} (xs : List Mat) :
    ∀ l : List ℕ, (∀ i ∈ l, i < xs.length) → ∀ f0 : Mat,
      ∃ f, l.foldlM
        (fun f i =>
          if i = 0 then some f
          else (xs.get? i).map
            (fun xi => nnReLU (nnAdd (nnLinear xi w1) (nnLinear f w2))))
        f0 = some f := by
  intro l
  induction l with
  | nil => intro _ f0; exact ⟨f0, rfl⟩
  | cons i t ih =>
    intro hl f0
    by_cases hi : i = 0
    · subst hi
      obtain ⟨f, hf⟩ := ih (fun j hj => hl j (List.mem_cons_of_mem 0 hj)) f0
      refine ⟨f, ?_⟩
      rw [List.foldlM_cons]
      simp only [if_pos rfl, Option.some_bind]
      exact hf
    · have hilt : i < xs.length := hl i (List.mem_cons_self i t)
      have hget : xs.get? i = some (xs.get ⟨i, hilt⟩) := List.get?_eq_get hilt
      obtain ⟨f, hf⟩ := ih (fun j hj => hl j (List.mem_cons_of_mem i hj))
        (nnReLU (nnAdd (nnLinear (xs.get ⟨i, hilt⟩) w1)
          (nnLinear f0 w2)))
      refine ⟨f, ?_⟩
      rw [List.foldlM_cons]
      simp only [if_neg hi, hget, Option.map_some', Option.some_bind]
      exact hf

theorem langHidden_some (w1 w2 : Mat) (xs : List Mat) (f0 : Mat) :
    ∃ f, langHidden w1 w2 xs f0 = some f :=
  foldlM_langStep_some xs (List.range xs.length)
    (fun j hj => List.mem_range.1 hj) f0

theorem foldlM_langStep_shape {w1 w2 : Mat} {n : ℕ} {xs : List Mat}
    (hw1 : w1.IsShape 47 100) (hw2 : w2.IsShape 100 100)
    (hxs : ∀ x ∈ xs, x.IsShape n 47) :
    ∀ l : List ℕ, ∀ f0 : Mat, f0.IsShape n 100 → ∀ f,
      l.foldlM
        (fun f i =>
          if i = 0 then some f
          else (xs.get? i).map
            (fun xi => nnReLU (nnAdd (nnLinear xi w1) (nnLinear f w2))))
        f0 = some f → f.IsShape n 100 := by
  intro l
  induction l with
  | nil =>
    intro f0 h0 f hf
    simp only [List.foldlM_nil] at hf
    exact (Option.some_inj.1 hf) ▸ h0
  | cons i t ih =>
    intro f0 h0 f hf
    by_cases hi : i = 0
    · rw [List.foldlM_cons] at hf
      simp only [hi, if_pos] at hf
      exact ih f0 h0 f (by simpa using hf)
    · rw [List.foldlM_cons] at hf
      simp only [hi, if_neg, ite_false] at hf
      cases hget : xs.get? i with
      | none => rw [hget] at hf; simp at hf
      | some xi =>
        rw [hget] at hf
        simp only [Option.map_some'] at hf
        have hxi : xi ∈ xs := List.get?_mem hget
        have hfs : (nnReLU (nnAdd (nnLinear xi w1)
            (nnLinear f0 w2))).IsShape n 100 := by
          have h1 : (nnLinear xi w1).IsShape n 100 := by
            have := isShape_nnLinear hw1 (by norm_num) xi
            rwa [(hxs xi hxi).1] at this
          have h2 : (nnLinear f0 w2).IsShape n 100 := by
            have := isShape_nnLinear hw2 (by norm_num) f0
            rwa [h0.1] at this
          exact isShape_nnReLU (isShape_nnAdd h1 h2)
        exact ih _ hfs f (by simpa using hf)

/-- The hidden-state recurrence exactly as the specification words it:
`h_0 = ReLU(Linear(xs[0], w_1))` and
`h_i = ReLU(Add(Linear(xs[i], w_1), Linear(h_(i-1), w_2)))`. -/
def langHSpec (s : LangState) (xs : List Mat) : ℕ → Mat
  | 0 => nnReLU (nnLinear (xs.getD 0 []) s.w_1)
  | i + 1 => nnReLU (nnAdd (nnLinear (xs.getD (i + 1) []) s.w_1)
      (nnLinear (langHSpec s xs i) s.w_2))

theorem foldlM_range_spec (s : LangState) (xs : List Mat) :
    ∀ n : ℕ, 1 ≤ n → n ≤ xs.length →
      (List.range n).foldlM
        (fun f i =>
          if i = 0 then some f
          else (xs.get? i).map
            (fun xi => nnReLU (nnAdd (nnLinear xi s.w_1) (nnLinear f s.w_2))))
        (nnReLU (nnLinear (xs.getD 0 []) s.w_1)) =
      some (langHSpec s xs (n - 1)) := by
  intro n
  induction n with
  | zero => intro h1 _; exact absurd h1 (by omega)
  | succ n ih =>
    intro _ hlen
    rcases Nat.eq_zero_or_pos n with rfl | hn
    · have hr1 : List.range 1 = [0] := by simp [List.range_succ]
      rw [hr1, List.foldlM_cons]
      simp only [if_pos rfl, Option.some_bind, List.foldlM_nil]
      rfl
    · obtain ⟨m, rfl⟩ : ∃ m, n = m + 1 := ⟨n - 1, by omega⟩
      rw [List.range_succ, List.foldlM_append, ih (by omega) (by omega)]
      have hlt : m + 1 < xs.length := by omega
      have hget : xs.get? (m + 1) = some (xs.get ⟨m + 1, hlt⟩) :=
        List.get?_eq_get hlt
      have hgetD : xs.getD (m + 1) [] = xs.get ⟨m + 1, hlt⟩ :=
        List.getD_eq_get xs [] hlt
      simp only [Option.some_bind, List.foldlM_cons,
        if_neg (Nat.succ_ne_zero m), hget, Option.map_some', List.foldlM_nil]
      have hsub1 : m + 1 - 1 = m := by omega
      have hsub2 : m + 1 + 1 - 1 = m + 1 := by omega
      rw [hsub1, hsub2]
      show some (nnReLU (nnAdd (nnLinear (xs.get ⟨m + 1, hlt⟩) s.w_1)
        (nnLinear (langHSpec s xs m) s.w_2))) = some (langHSpec s xs (m + 1))
      rw [langHSpec, hgetD]

theorem langHidden_spec (s : LangState) (x0 : Mat) (t : List Mat) :
    langHidden s.w_1 s.w_2 (x0 :: t) (nnReLU (nnLinear x0 s.w_1)) =
      some (langHSpec s (x0 :: t) ((x0 :: t).length - 1)) := by
  have h := foldlM_range_spec s (x0 :: t) (x0 :: t).length (by simp)
    (le_refl _)
  simpa [langHidden] using h

/-- C8: on a nonempty character sequence, `LanguageIDModel.run` computes
exactly the hidden-state recurrence `h_0 = ReLU(Linear(xs[0], w_1))`,
`h_i = ReLU(Add(Linear(xs[i], w_1), Linear(h_(i-1), w_2)))` and returns the
per-language score node `Linear(h_(L-1), w_3)`. -/
theorem lang_run_recurrence (s : LangState) (xs : List Mat) (h : xs ≠ []) :
    langRun s xs = some
      ({ s with batch_size :=
          if s.batch_size = 0 then Mat.rows (xs.headD []) else s.batch_size },
        nnLinear (langHSpec s xs (xs.length - 1)) s.w_3) := by
  obtain ⟨x0, t, rfl⟩ := List.exists_cons_of_ne_nil h
  rw [langRun_cons, langHidden_spec]
  simp

/-- Concrete instantiation of the recurrence theorem on a one-character
sequence. -/
theorem lang_run_recurrence_witness :
    langRun (langInit [] [] []) [[[0]]] = some
      (LangState.mk [] [] [] 1 (-1/100),
        nnLinear (langHSpec (langInit [] [] []) [[[0]]] 0)
          (langInit [] [] []).w_3) :=
  lang_run_recurrence (langInit [] [] []) [[[0]]] (by simp)

/-- Parameter shapes fixed by `RegressionModel.__init__`. -/
def RegState.WF (s : RegState) : Prop :=
  s.w_1.IsShape 1 400 ∧ s.b_1.IsShape 1 400 ∧ s.w_2.IsShape 400 1 ∧
    s.b_2.IsShape 1 1

/-- Parameter shapes fixed by `DigitClassificationModel.__init__`. -/
def DigitState.WF (s : DigitState) : Prop :=
  s.w_1.IsShape 784 100 ∧ s.b_1.IsShape 1 100 ∧ s.w_2.IsShape 100 10 ∧
    s.b_2.IsShape 1 10

/-- Parameter shapes fixed by `LanguageIDModel.__init__`. -/
def LangState.WF (s : LangState) : Prop :=
  s.w_1.IsShape 47 100 ∧ s.w_2.IsShape 100 100 ∧ s.w_3.IsShape 100 5

theorem regNet_shape {s : RegState} {x : Mat} {n : ℕ} (hs : s.WF)
    (hx : x.IsShape n 1) : (regNet s x).IsShape n 1 := by
  obtain ⟨hw1, hb1, hw2, hb2⟩ := hs
  have h1 : (nnLinear x s.w_1).IsShape n 400 := by
    have := isShape_nnLinear hw1 (by norm_num) x
    rwa [hx.1] at this
  have h2 : (nnReLU (nnAddBias (nnLinear x s.w_1) s.b_1)).IsShape n 400 :=
    isShape_nnReLU (isShape_nnAddBias h1 hb1)
  have h3 : (nnLinear (nnReLU (nnAddBias (nnLinear x s.w_1) s.b_1))
      s.w_2).IsShape n 1 := by
    have := isShape_nnLinear hw2 (by norm_num)
      (nnReLU (nnAddBias (nnLinear x s.w_1) s.b_1))
    rwa [h2.1] at this
  exact isShape_nnAddBias h3 hb2

theorem digitNet_shape {s : DigitState} {x : Mat} {n : ℕ} (hs : s.WF)
    (hx : x.IsShape n 784) : (digitNet s x).IsShape n 10 := by
  obtain ⟨hw1, hb1, hw2, hb2⟩ := hs
  have h1 : (nnLinear x s.w_1).IsShape n 100 := by
    have := isShape_nnLinear hw1 (by norm_num) x
    rwa [hx.1] at this
  have h2 : (nnReLU (nnAddBias (nnLinear x s.w_1) s.b_1)).IsShape n 100 :=
    isShape_nnReLU (isShape_nnAddBias h1 hb1)
  have h3 : (nnLinear (nnReLU (nnAddBias (nnLinear x s.w_1) s.b_1))
      s.w_2).IsShape n 10 := by
    have := isShape_nnLinear hw2 (by norm_num)
      (nnReLU (nnAddBias (nnLinear x s.w_1) s.b_1))
    rwa [h2.1] at this
  exact isShape_nnAddBias h3 hb2

theorem regRun_snd (s : RegState) (x : Mat) : (regRun s x).2 = regNet s x := by
  by_cases h : s.batch_size = 0 <;> simp [regRun, h]

/-- C6 (amended): every `run` returns a node of shape
`(batch_size, output_dimension)`, with output dimension `1` for the
perceptron (a single score), `1` for regression, `10` for digit
classification and `5` for language identification. -/
theorem run_output_shapes :
    (∀ w x : Mat, (percRunS w x).2.IsShape 1 1) ∧
    (∀ (s : RegState) (x : Mat) (n : ℕ), s.WF → x.IsShape n 1 →
      (regRun s x).2.IsShape n 1) ∧
    (∀ (s : DigitState) (x : Mat) (n : ℕ), s.WF → x.IsShape n 784 →
      (digitRun s x).2.IsShape n 10) ∧
    (∀ (s : LangState) (xs : List Mat) (n : ℕ) (r : LangState × Mat),
      s.WF → (∀ x ∈ xs, x.IsShape n 47) → langRun s xs = some r →
      r.2.IsShape n 5) := by
  refine ⟨fun w x => isShape_nnDotProduct x w, ?_, ?_, ?_⟩
  · intro s x n hs hx
    rw [regRun_snd]
    exact regNet_shape hs hx
  · intro s x n hs hx
    exact digitNet_shape hs hx
  · intro s xs n r hs hxs hr
    obtain ⟨hw1, hw2, hw3⟩ := hs
    cases xs with
    | nil => rw [langRun_nil] at hr; exact absurd hr (by simp)
    | cons x0 t =>
      rw [langRun_cons] at hr
      obtain ⟨f, hf, hfr⟩ := Option.map_eq_some'.1 hr
      have hx0 : x0.IsShape n 47 := hxs x0 (List.mem_cons_self x0 t)
      have hf0 : (nnReLU (nnLinear x0 s.w_1)).IsShape n 100 := by
        have := isShape_nnLinear hw1 (by norm_num) x0
        rw [hx0.1] at this
        exact isShape_nnReLU this
      have hfs : f.IsShape n 100 :=
        foldlM_langStep_shape hw1 hw2 hxs (List.range (x0 :: t).length)
          (nnReLU (nnLinear x0 s.w_1)) hf0 f (by simpa [langHidden] using hf)
      have hout : (nnLinear f s.w_3).IsShape n 5 := by
        have := isShape_nnLinear hw3 (by norm_num) f
        rwa [hfs.1] at this
      rw [← hfr]
      exact hout

/-- The original shape claim is false for the perceptron: `run` returns the
`1 × 1` score node `DotProduct(x, w)`, not a `1 × 2` node, already on a
two-dimensional data point. -/
theorem run_output_shapes_cex :
    (percRunS [[1, 1]] [[1, 0]]).2.IsShape 1 1 ∧
    ¬ (percRunS [[1, 1]] [[1, 0]]).2.IsShape 1 2 := by
  constructor
  · exact isShape_nnDotProduct [[1, 0]] [[1, 1]]
  · intro h
    have := h.2 [dotL [1, 0] [1, 1]] (by simp [percRunS, nnDotProduct])
    simp at this

/-- A matrix of replicated zero rows has the replicated shape. -/
theorem isShape_replicate_mat (r c : ℕ) :
    Mat.IsShape (List.replicate r (List.replicate c (0:ℚ))) r c := by
  constructor
  · exact List.length_replicate r _
  · intro row hrow
    rw [List.eq_of_mem_replicate hrow]
    exact List.length_replicate c 0

/-- Concrete instantiation of the amended shape theorem on well-shaped
states built from replicated zero entries. -/
theorem run_output_shapes_witness :
    (regRun (RegState.mk [List.replicate 400 0]
        [List.replicate 400 0] (List.replicate 400 (List.replicate 1 0))
        [List.replicate 1 0] 0 (-1/100)) [[0]]).2.IsShape 1 1 ∧
    (digitRun (DigitState.mk (List.replicate 784 (List.replicate 100 0))
        [List.replicate 100 0] (List.replicate 100 (List.replicate 10 0))
        [List.replicate 10 0] 5 (-1/100))
      [List.replicate 784 0]).2.IsShape 1 10 ∧
    ∃ r, langRun (LangState.mk (List.replicate 47 (List.replicate 100 0))
        (List.replicate 100 (List.replicate 100 0))
        (List.replicate 100 (List.replicate 5 0)) 0 (-1/100))
      [[List.replicate 47 0]] = some r ∧ r.2.IsShape 1 5 := by
  refine ⟨run_output_shapes.2.1 _ [[0]] 1
      ⟨isShape_replicate_mat 1 400, isShape_replicate_mat 1 400,
        isShape_replicate_mat 400 1, isShape_replicate_mat 1 1⟩
      (isShape_replicate_mat 1 1),
    run_output_shapes.2.2.1 _ [List.replicate 784 0] 1
      ⟨isShape_replicate_mat 784 100, isShape_replicate_mat 1 100,
        isShape_replicate_mat 100 10, isShape_replicate_mat 1 10⟩
      (isShape_replicate_mat 1 784), ?_⟩
  obtain ⟨f, hf⟩ := langHidden_some
    (List.replicate 47 (List.replicate 100 (0:ℚ)))
    (List.replicate 100 (List.replicate 100 (0:ℚ)))
    [[List.replicate 47 (0:ℚ)]]
    (nnReLU (nnLinear [List.replicate 47 (0:ℚ)]
      (List.replicate 47 (List.replicate 100 (0:ℚ)))))
  have hr : langRun (LangState.mk (List.replicate 47 (List.replicate 100 0))
      (List.replicate 100 (List.replicate 100 0))
      (List.replicate 100 (List.replicate 5 0)) 0 (-1/100))
      [[List.replicate 47 0]] = some
        (LangState.mk (List.replicate 47 (List.replicate 100 0))
          (List.replicate 100 (List.replicate 100 0))
          (List.replicate 100 (List.replicate 5 0)) 1 (-1/100),
        nnLinear f (List.replicate 100 (List.replicate 5 0))) := by
    rw [langRun_cons, hf]
    rfl
  refine ⟨_, hr, run_output_shapes.2.2.2 _ [[List.replicate 47 0]] 1 _
    ⟨isShape_replicate_mat 47 100, isShape_replicate_mat 100 100,
      isShape_replicate_mat 100 5⟩ ?_ hr⟩
  intro x hx
  rcases List.mem_singleton.1 hx with rfl
  exact isShape_replicate_mat 1 47

/-- The regression forward value ignores the `batch_size` attribute. -/
theorem regNet_bs (s : RegState) (b : ℕ) (x : Mat) :
    regNet { s with batch_size := b } x = regNet s x := rfl

/-- C7: running any model twice on the same input, with no training call in
between, produces identical outputs; the only state a `run` may touch (the
recorded batch size) does not influence the forward value. -/
theorem run_idempotent :
    (∀ w x : Mat, (percRunS (percRunS w x).1 x).2 = (percRunS w x).2) ∧
    (∀ (s : RegState) (x : Mat),
      (regRun (regRun s x).1 x).2 = (regRun s x).2) ∧
    (∀ (s : DigitState) (x : Mat),
      (digitRun (digitRun s x).1 x).2 = (digitRun s x).2) ∧
    (∀ (s : LangState) (xs : List Mat) (r : LangState × Mat),
      langRun s xs = some r →
      ∃ r2, langRun r.1 xs = some r2 ∧ r2.2 = r.2) := by
  refine ⟨fun w x => rfl, ?_, fun s x => rfl, ?_⟩
  · intro s x
    by_cases h : s.batch_size = 0
    · by_cases h2 : Mat.rows x = 0
      · simp [regRun, h, h2, regNet_bs]
      · simp [regRun, h, h2, regNet_bs]
    · simp [regRun, h]
  · intro s xs r hr
    cases xs with
    | nil => rw [langRun_nil] at hr; exact absurd hr (by simp)
    | cons x0 t =>
      rw [langRun_cons] at hr
      obtain ⟨f, hf, hfr⟩ := Option.map_eq_some'.1 hr
      subst hfr
      refine ⟨({ s with batch_size :=
          if (if s.batch_size = 0 then Mat.rows x0 else s.batch_size) = 0
          then (Mat.rows x0)
          else (if s.batch_size = 0 then Mat.rows x0 else s.batch_size) },
        nnLinear f s.w_3), ?_, rfl⟩
      rw [langRun_cons]
      dsimp only
      rw [hf]
      rfl

/-- Concrete instantiation of the idempotence theorem for the stateful
language model `run`. -/
theorem run_idempotent_witness :
    ∃ r r2 : LangState × Mat, langRun (langInit [] [] []) [[[0]]] = some r ∧
      langRun r.1 [[[0]]] = some r2 ∧ r2.2 = r.2 := by
  obtain ⟨f, hf⟩ := langHidden_some (langInit [] [] []).w_1
    (langInit [] [] []).w_2 [[[0]]]
    (nnReLU (nnLinear [[0]] (langInit [] [] []).w_1))
  have hr : langRun (langInit [] [] []) [[[0]]] = some
      (LangState.mk [] [] [] 1 (-1/100), nnLinear f (langInit [] [] []).w_3)
      := by
    rw [langRun_cons, hf]
    rfl
  obtain ⟨r2, h2, he⟩ := run_idempotent.2.2.2 (langInit [] [] []) [[[0]]]
    (LangState.mk [] [] [] 1 (-1/100), nnLinear f (langInit [] [] []).w_3) hr
  exact ⟨_, r2, hr, h2, he⟩

/-- C9: no `run` writes any model parameter; the only state written is the
`batch_size` of the regression and language models, and only on a call that
finds it still `0`, where it receives the input's row count. -/
theorem run_frame :
    (∀ w x : Mat, (percRunS w x).1 = w) ∧
    (∀ (s : RegState) (x : Mat),
      (regRun s x).1.w_1 = s.w_1 ∧ (regRun s x).1.b_1 = s.b_1 ∧
      (regRun s x).1.w_2 = s.w_2 ∧ (regRun s x).1.b_2 = s.b_2 ∧
      (s.batch_size ≠ 0 → (regRun s x).1 = s) ∧
      (s.batch_size = 0 → (regRun s x).1.batch_size = Mat.rows x)) ∧
    (∀ (s : DigitState) (x : Mat), (digitRun s x).1 = s) ∧
    (∀ (s : LangState) (xs : List Mat) (r : LangState × Mat),
      langRun s xs = some r →
      r.1.w_1 = s.w_1 ∧ r.1.w_2 = s.w_2 ∧ r.1.w_3 = s.w_3 ∧
      (s.batch_size ≠ 0 → r.1 = s) ∧
      (s.batch_size = 0 → r.1.batch_size = Mat.rows (xs.headD []))) := by
  refine ⟨fun w x => rfl, ?_, fun s x => rfl, ?_⟩
  · intro s x
    by_cases h : s.batch_size = 0 <;>
      simp [regRun, h]
  · intro s xs r hr
    cases xs with
    | nil => rw [langRun_nil] at hr; exact absurd hr (by simp)
    | cons x0 t =>
      rw [langRun_cons] at hr
      obtain ⟨f, _, hfr⟩ := Option.map_eq_some'.1 hr
      subst hfr
      refine ⟨rfl, rfl, rfl, ?_, ?_⟩
      · intro hbs
        show { s with batch_size :=
          if s.batch_size = 0 then Mat.rows x0 else s.batch_size } = s
        rw [if_neg hbs]
      · intro hbs
        show (if s.batch_size = 0 then Mat.rows x0 else s.batch_size) =
          Mat.rows ((x0 :: t).headD [])
        rw [if_pos hbs]
        rfl

/-- Concrete instantiation of the frame theorem: a fresh regression model
records the batch size once, a nonzero batch size is left alone, and the
language model preserves its parameters. -/
theorem run_frame_witness :
    (regRun (regInit [] [] [] []) [[0]]).1.batch_size = Mat.rows [[0]] ∧
    (regRun (RegState.mk [] [] [] [] 3 (-1/100)) [[0]]).1
      = RegState.mk [] [] [] [] 3 (-1/100) ∧
    ∃ r : LangState × Mat, langRun (langInit [] [] []) [[[0]]] = some r ∧
      r.1.w_1 = (langInit [] [] []).w_1 ∧
      r.1.batch_size = Mat.rows (([[[0]]] : List Mat).headD []) := by
  obtain ⟨f, hf⟩ := langHidden_some (langInit [] [] []).w_1
    (langInit [] [] []).w_2 [[[0]]]
    (nnReLU (nnLinear [[0]] (langInit [] [] []).w_1))
  have hr : langRun (langInit [] [] []) [[[0]]] = some
      (LangState.mk [] [] [] 1 (-1/100), nnLinear f (langInit [] [] []).w_3)
      := by
    rw [langRun_cons, hf]
    rfl
  obtain ⟨h1, h2, h3, h4, h5⟩ := run_frame.2.2.2 (langInit [] [] []) [[[0]]]
    (LangState.mk [] [] [] 1 (-1/100), nnLinear f (langInit [] [] []).w_3) hr
  exact ⟨(run_frame.2.1 (regInit [] [] [] []) [[0]]).2.2.2.2.2 rfl,
    (run_frame.2.1 (RegState.mk [] [] [] [] 3 (-1/100)) [[0]]).2.2.2.2.1
      (by decide),
    _, hr, h1, h5 rfl⟩

/-- C10: `LanguageIDModel.run` and `get_loss` fail (out-of-bounds `xs[0]`)
on the empty sequence and succeed, with every index access in bounds, on
every nonempty sequence. -/
theorem lang_requires_nonempty :
    (∀ s : LangState, langRun s [] = none) ∧
    (∀ (sm : Mat → Mat → ℚ) (s : LangState) (y : Mat),
      langGetLoss sm s [] y = none) ∧
    (∀ (s : LangState) (xs : List Mat), xs ≠ [] →
      ∃ r, langRun s xs = some r) ∧
    (∀ (sm : Mat → Mat → ℚ) (s : LangState) (xs : List Mat) (y : Mat),
      xs ≠ [] → ∃ r, langGetLoss sm s xs y = some r) := by
  have hsome : ∀ (s : LangState) (xs : List Mat), xs ≠ [] →
      ∃ r, langRun s xs = some r := by
    intro s xs hxs
    obtain ⟨x0, t, rfl⟩ := List.exists_cons_of_ne_nil hxs
    obtain ⟨f, hf⟩ := langHidden_some s.w_1 s.w_2 (x0 :: t)
      (nnReLU (nnLinear x0 s.w_1))
    refine ⟨({ s with batch_size :=
        if s.batch_size = 0 then Mat.rows x0 else s.batch_size },
      nnLinear f s.w_3), ?_⟩
    rw [langRun_cons, hf]
    rfl
  refine ⟨langRun_nil, ?_, hsome, ?_⟩
  · intro sm s y
    rw [langGetLoss, langRun_nil]
    rfl
  · intro sm s xs y hxs
    obtain ⟨r, hr⟩ := hsome s xs hxs
    refine ⟨(r.1, sm r.2 y), ?_⟩
    rw [langGetLoss, hr]
    rfl

/-- Concrete instantiation of the nonemptiness theorem on a one-character
sequence. -/
theorem lang_requires_nonempty_witness :
    (∃ r, langRun (langInit [] [] []) [[[0]]] = some r) ∧
    (∃ r, langGetLoss (fun _ _ => 0) (langInit [] [] []) [[[0]]] [[0]]
      = some r) :=
  ⟨lang_requires_nonempty.2.2.1 (langInit [] [] []) [[[0]]] (by simp),
   lang_requires_nonempty.2.2.2 (fun _ _ => 0) (langInit [] [] []) [[[0]]]
     [[0]] (by simp)⟩

end Models
